import Mathlib

/-! q2s3: work partitioning and incremental sync decisions

A shallow embedding of `main.go` of q2s3 (a tool that every node of a cluster
runs to upload its share of a directory tree to an S3 bucket) together with
theorems about

* `assignJob`, which gives each cluster node a share of the 16 hash buckets,
* the routing of a file path to a bucket (first hex digit of its SHA-1),
* the skip / new / modified decision taken for a file, and
* the directory walk `s3upload` and the command dispatch in `main`.

Go strings are byte sequences, so they are modelled as lists of bytes; Go
`int` / `int64` values are modelled as `Nat` / `Int` (no arithmetic in the
modelled code can leave the 64-bit range: the only products and sums are
bucket positions, all of them at most 16 + the roster length).
-/

namespace Q2S3

/-! ## Strings -/

/-- A byte, the element type of a Go string. -/
abbrev Byte := Fin 256

/-- Go strings: immutable byte sequences. -/
abbrev GoString := List Byte

/-- The bytes of an ASCII literal of the source. -/
def ascii (s : String) : GoString := s.data.map (fun c => Fin.ofNat c.toNat)

/-- Go `fmt.Sprintf("%x", i)` for a non-negative `i`: lowercase hexadecimal
without leading zeros. -/
def fmtHex (i : Nat) : GoString := (Nat.toDigits 16 i).map (fun c => Fin.ofNat c.toNat)

/-- Go `strings.HasPrefix(s, p)`: byte-wise test. -/
def stringsHasPrefix (s p : GoString) : Bool := p.isPrefixOf s

/-! ## The partitioner: `divmod` and `assignJob` -/

/-- Run-time panics of the Go runtime that the modelled code can raise. -/
inductive Panic
  | divideByZero
  | indexOutOfRange
  deriving DecidableEq, Repr

/-- Go `divmod` of `main.go`: truncating integer division and remainder; the Go
runtime panics on a zero denominator. (The quotient cannot overflow except for
`-2^63 / -1`; the only call is `divmod(16, len(nodeList))`.) -/
def divmod (numerator denominator : Int) : Except Panic (Int × Int) :=
  if denominator = 0 then .error .divideByZero
  else .ok (Int.tdiv numerator denominator, Int.tmod numerator denominator)

/-- Go slice indexing `buckets[i]` for a non-negative index, which panics when
the index is not below the length. -/
def index (buckets : List GoString) (i : Nat) : Except Panic GoString :=
  match buckets[i]? with
  | some b => .ok b
  | none => .error .indexOutOfRange

/-- The loop `for k, v := range nodeList { if name == v { hostIndex = k } }`
started with `hostIndex` and the position `k` of the first element. -/
def hostIndexLoop (name : GoString) : List GoString → Nat → Nat → Nat
  | [], _, hostIndex => hostIndex
  | v :: rest, k, hostIndex =>
    hostIndexLoop name rest (k + 1) (if name = v then k else hostIndex)

/-- The loop `for x := 0; x < int(quotient); x++ { myBuckets = append(myBuckets,
buckets[x*len(nodeList)+hostIndex]) }`, over the values `xs` that `x` takes. -/
def baseLoop (buckets : List GoString) (n hostIndex : Nat) :
    List Nat → List GoString → Except Panic (List GoString)
  | [], myBuckets => .ok myBuckets
  | x :: xs, myBuckets =>
    match index buckets (x * n + hostIndex) with
    | .error e => .error e
    | .ok b => baseLoop buckets n hostIndex xs (myBuckets ++ [b])

/-- The slice `buckets` that `assignJob` builds: `fmt.Sprintf("%x", i)` for
`i = 0 .. 15`. -/
def buckets : List GoString := (List.range 16).map fmtHex

/-- Go `assignJob` of `main.go`: the bucket labels owned by the node called
`name` in the roster `nodeList`, or the panic that stops the program. -/
def assignJob (nodeList : List GoString) (name : GoString) :
    Except Panic (List GoString) :=
  match divmod 16 (nodeList.length : Int) with
  | .error e => .error e
  | .ok (quotient, remainder) =>
    let hostIndex := hostIndexLoop name nodeList 0 0
    match baseLoop buckets nodeList.length hostIndex (List.range quotient.toNat) [] with
    | .error e => .error e
    | .ok myBuckets =>
      if (hostIndex : Int) < remainder then
        match index buckets (quotient.toNat * nodeList.length + hostIndex) with
        | .error e => .error e
        | .ok b => .ok (myBuckets ++ [b])
      else .ok myBuckets

/-! ## The path router -/

/-- A SHA-1 digest, Go `[20]byte`. -/
abbrev Digest := { d : List Byte // d.length = 20 }

/-- The table `hextable` of Go `encoding/hex`. -/
def hextable : GoString := ascii "0123456789abcdef"

/-- Go `hex.EncodeToString`: two table characters per byte, `hextable[v>>4]`
then `hextable[v&0x0f]`. -/
def hexEncodeToString (src : List Byte) : GoString :=
  src.flatMap (fun v => [hextable.getD (v.val / 16) 0, hextable.getD (v.val % 16) 0])

/-- The bucket of a file path in `s3upload`:
`sha1 := sha1.Sum([]byte(filePath)); sha1String := hex.EncodeToString(sha1[:]);
bucket := sha1String[:1]`. The hash `sha1.Sum` of the Go standard library is
the parameter `sum`; the slice `[:1]` of the 40-character string keeps its first
byte. -/
def route (sum : GoString → Digest) (filePath : GoString) : GoString :=
  (hexEncodeToString (sum filePath).val).take 1

/-! ## The sync decision -/

/-- What `s3upload` does with a file after the metadata probe: print `SKIP`, or
open the file and upload it, reporting it under `msg` (`NEW` or `MOD`). -/
inductive Decision
  | skip
  | upload (msg : String)
  deriving DecidableEq, Repr

/-- The decision of `s3upload` for a local file of size `fileSize` and
modification time `fileModified` (Unix seconds), given the answer of
`HeadObject`: `none` when it returned an error, else the object's
`ContentLength` and `LastModified.Unix()`.

```go
var objectSize int64
objectModified := int64(0)
if err != nil { msg = "NEW" } else { objectSize = ...; objectModified = ...; msg = "MOD" }
if fileModified < objectModified && fileSize == objectSize { SKIP } else { upload }
```
-/
def syncDecision (fileSize fileModified : Int) (head : Option (Int × Int)) : Decision :=
  let (msg, objectSize, objectModified) :=
    match head with
    | none => ("NEW", (0 : Int), (0 : Int))
    | some (contentLength, lastModified) => ("MOD", contentLength, lastModified)
  if fileModified < objectModified && fileSize == objectSize then .skip
  else .upload msg

/-! ## The tree walker -/

/-- The result of `ioutil.ReadDir` on a directory, with the results of the
nested `ReadDir` calls that the walk makes for its subdirectories: the entries
in the order `ReadDir` returns them. -/
inductive Listing
  /-- no further entry -/
  | nil
  /-- an entry with `IsDir() = false`, then the remaining entries -/
  | file (name : GoString) (rest : Listing)
  /-- a directory whose `ReadDir` succeeds with `contents`, then the remaining entries -/
  | dir (name : GoString) (contents : Listing) (rest : Listing)
  /-- a directory whose `ReadDir` fails, then the remaining entries -/
  | unreadable (name : GoString) (rest : Listing)
  deriving Repr

/-- The local file system as `s3upload` queries it by path. -/
structure LocalFS where
  /-- `os.Stat`: `Size()` and `ModTime().Unix()`, or `none` on error -/
  stat : GoString → Option (Int × Int)
  /-- whether `os.Open` succeeds -/
  canOpen : GoString → Bool

/-- The object store behind the S3 client, a state machine over `σ`. -/
structure ObjectStore (σ : Type) where
  /-- `svc.HeadObject`: `none` when it returns an error, else `ContentLength`
  and `LastModified.Unix()` -/
  headObject : σ → GoString → Option (Int × Int) × σ
  /-- `uploader.Upload` of a body of the given size under a key: whether it
  succeeded, and the new state -/
  upload : σ → GoString → Int → Bool × σ

/-- What the walk does that is visible outside the process. -/
inductive Event
  /-- `logger.Println("Cannot stat:", filePath)` -/
  | cannotStat (filePath : GoString)
  /-- a `HeadObject` request for a key -/
  | headObject (key : GoString)
  /-- the `SKIP` line for a file -/
  | skip (filePath : GoString)
  /-- `logger.Printf("failed to open file ...")` -/
  | cannotOpen (filePath : GoString)
  /-- an `Upload` request for a key, reported under `msg`, and whether it succeeded -/
  | upload (key : GoString) (msg : String) (ok : Bool)
  deriving DecidableEq, Repr

/-- The state threaded through the walk. -/
structure World (σ : Type) where
  /-- state of the object store -/
  remote : σ
  /-- events so far, oldest first -/
  trace : List Event
  /-- whether `exitErrorf` has ended the process (`os.Exit(1)`) -/
  exited : Bool

/-- The body of `if x == bucket { ... }` in `s3upload`: stat, probe, decide,
upload. The key is `filePath[1:]`. (The progress line and the transfer
statistics of `dataTransfer` do not influence control flow and are left out.) -/
def syncFile {σ : Type} (fs : LocalFS) (store : ObjectStore σ) (filePath : GoString)
    (w : World σ) : World σ :=
  match fs.stat filePath with
  | none => { w with trace := w.trace ++ [.cannotStat filePath] }
  | some (fileSize, fileModified) =>
    let key := filePath.drop 1
    let (head, s1) := store.headObject w.remote key
    match syncDecision fileSize fileModified head with
    | .skip => { w with remote := s1, trace := w.trace ++ [.headObject key, .skip filePath] }
    | .upload msg =>
      if fs.canOpen filePath then
        let (ok, s2) := store.upload s1 key fileSize
        { w with remote := s2, trace := w.trace ++ [.headObject key, .upload key msg ok] }
      else
        { w with remote := s1, trace := w.trace ++ [.headObject key, .cannotOpen filePath] }

/-- The loop `for _, x := range myBuckets { if x == bucket { ... } }`. -/
def bucketLoop {σ : Type} (fs : LocalFS) (store : ObjectStore σ) (filePath bucket : GoString) :
    List GoString → World σ → World σ
  | [], w => w
  | x :: xs, w =>
    bucketLoop fs store filePath bucket xs (if x = bucket then syncFile fs store filePath w else w)

/-- The loop `for _, file := range files { ... }` of `s3upload` over the
entries of `basedir`, with the recursive calls for subdirectories; nothing
more happens once the process has exited. -/
def walk {σ : Type} (fs : LocalFS) (store : ObjectStore σ) (sum : GoString → Digest)
    (myBuckets : List GoString) : GoString → Listing → World σ → World σ
  | _, .nil, w => w
  | basedir, .file name rest, w =>
    if w.exited then w
    else if stringsHasPrefix name (ascii ".") then walk fs store sum myBuckets basedir rest w
    else
      let filePath := basedir ++ ascii "/" ++ name
      walk fs store sum myBuckets basedir rest
        (bucketLoop fs store filePath (route sum filePath) myBuckets w)
  | basedir, .dir name contents rest, w =>
    if w.exited then w
    else if stringsHasPrefix name (ascii ".") then walk fs store sum myBuckets basedir rest w
    else
      let filePath := basedir ++ ascii "/" ++ name
      walk fs store sum myBuckets basedir rest
        (walk fs store sum myBuckets filePath contents w)
  | basedir, .unreadable name rest, w =>
    if w.exited then w
    else if stringsHasPrefix name (ascii ".") then walk fs store sum myBuckets basedir rest w
    else { w with exited := true }

/-- Go `s3upload` of `main.go`, for the directory `basedir` whose `ReadDir`
result is `files` (`none` when `ReadDir` fails, which ends the process). -/
def s3upload {σ : Type} (fs : LocalFS) (store : ObjectStore σ) (sum : GoString → Digest)
    (basedir : GoString) (myBuckets : List GoString) (files : Option Listing)
    (w : World σ) : World σ :=
  match files with
  | none => { w with exited := true }
  | some listing => walk fs store sum myBuckets basedir listing w

/-! ## The command dispatch -/

/-- The command-line flags of `main`. -/
structure Flags where
  basedir : GoString
  s3bucket : GoString
  region : GoString
  action : GoString

/-- What `main` obtains from its surroundings. -/
structure Env (σ : Type) where
  /-- whether `/history/q2s3.log` can be opened -/
  logFileOk : Bool
  /-- the node names from `getNodes`, `none` when `qq` fails or its output does
  not parse (`getNodes` then exits with status 1) -/
  nodes : Option (List GoString)
  /-- `os.Hostname()` (its error is ignored) -/
  hostname : GoString
  /-- the bucket names from `ListBuckets`, `none` on error -/
  listBuckets : Option (List GoString)
  /-- the local file system -/
  fs : LocalFS
  /-- `ReadDir` of the base directory and below -/
  files : Option Listing
  /-- the object store and its state at start -/
  store : ObjectStore σ
  remote : σ
  /-- `sha1.Sum` -/
  sum : GoString → Digest

/-- How a run of the process ends. -/
structure Outcome where
  /-- exit status: 0 after `main` returns or `os.Exit(0)`, 1 after
  `os.Exit(1)`, 2 after a run-time panic -/
  status : Nat
  /-- the sync work done: probes, decisions and uploads -/
  trace : List Event
  deriving DecidableEq, Repr

/-- Go `main` of `main.go` after flag parsing. -/
def main {σ : Type} (flags : Flags) (env : Env σ) : Outcome :=
  if flags.basedir = ascii "" ∨ flags.s3bucket = ascii "" ∨ flags.region = ascii "" then
    ⟨1, []⟩
  else if !env.logFileOk then ⟨1, []⟩
  else
    match env.nodes with
    | none => ⟨1, []⟩
    | some nodeList =>
      match assignJob nodeList env.hostname with
      | .error _ => ⟨2, []⟩
      | .ok myBuckets =>
        if myBuckets.length < 1 then ⟨0, []⟩
        else
          match env.listBuckets with
          | none => ⟨1, []⟩
          | some names =>
            if names.all (fun b => b != flags.s3bucket) then ⟨1, []⟩
            else if flags.action = ascii "upload" then
              let w := s3upload env.fs env.store env.sum flags.basedir myBuckets env.files
                ⟨env.remote, [], false⟩
              ⟨if w.exited then 1 else 0, w.trace⟩
            else if flags.action = ascii "download" then ⟨1, []⟩
            else ⟨1, []⟩

/-! ## Definitions used in the statements -/

/-- The bucket positions that `assignJob` indexes for a roster of `n` nodes and
host index `hostIndex`: `x*n + hostIndex` for `x < 16/n`, then
`(16/n)*n + hostIndex` when `hostIndex < 16 % n`. -/
def positions (n hostIndex : Nat) : List Nat :=
  (List.range (16 / n)).map (fun x => x * n + hostIndex) ++
    (if hostIndex < 16 % n then [16 / n * n + hostIndex] else [])

/-- A roster of `n` distinct node names `node-0`, `node-1`, ... used for
concrete runs. -/
def sampleRoster (n : Nat) : List GoString :=
  (List.range n).map (fun i => ascii "node-" ++ fmtHex i)

/-- Whether an event is a metadata probe or an upload request for `key`. -/
def Event.touches (key : GoString) : Event → Bool
  | .headObject k => k = key
  | .upload k _ _ => k = key
  | _ => false

/-- Whether an event is an `Upload` request. -/
def Event.isUpload : Event → Bool
  | .upload _ _ _ => true
  | _ => false

/-- Whether an event is an `Upload` request that returned an error. -/
def Event.failedUpload : Event → Bool
  | .upload _ _ ok => !ok
  | _ => false

/-- The paths `basedir + "/" + name` of all entries of a tree that are not
directories, hidden or not. -/
def regularFiles : GoString → Listing → List GoString
  | _, .nil => []
  | basedir, .file name rest => (basedir ++ ascii "/" ++ name) :: regularFiles basedir rest
  | basedir, .dir name contents rest =>
    regularFiles (basedir ++ ascii "/" ++ name) contents ++ regularFiles basedir rest
  | basedir, .unreadable _ rest => regularFiles basedir rest

/-- The paths of the non-directory entries that are not hidden and not below a
hidden directory. -/
def visibleFiles : GoString → Listing → List GoString
  | _, .nil => []
  | basedir, .file name rest =>
    if stringsHasPrefix name (ascii ".") then visibleFiles basedir rest
    else (basedir ++ ascii "/" ++ name) :: visibleFiles basedir rest
  | basedir, .dir name contents rest =>
    if stringsHasPrefix name (ascii ".") then visibleFiles basedir rest
    else visibleFiles (basedir ++ ascii "/" ++ name) contents ++ visibleFiles basedir rest
  | basedir, .unreadable _ rest => visibleFiles basedir rest

/-- The state of the modelled object store: the stored objects by key, each
with its size and last-modified time, and the number of upload requests
received so far. -/
structure S3State where
  objects : GoString → Option (Int × Int)
  uploads : Nat

/-- An object store that behaves as the idempotence property assumes (the store
is an external service, reached through the AWS client). A metadata probe
reports the stored object or its absence; an accepted upload records the object
with the size of the body and with the time of the upload as its last-modified
time, and a refused upload changes no object. `clock n key` is the time (Unix seconds) at which the upload
request number `n` is served, `accepts n key` tells whether it succeeds. -/
def recordingStore (clock : Nat → GoString → Int) (accepts : Nat → GoString → Bool) :
    ObjectStore S3State where
  headObject s key := (s.objects key, s)
  upload s key size :=
    if accepts s.uploads key then
      (true, ⟨fun k => if k = key then some (size, clock s.uploads key) else s.objects k,
        s.uploads + 1⟩)
    else (false, ⟨s.objects, s.uploads + 1⟩)

/-- An object store holding no object. -/
def emptyBucket : S3State := ⟨fun _ => none, 0⟩

/-- A stand-in for `sha1.Sum` in concrete runs: it returns the SHA-1 digest
`59f7a0b8980acdc1b14329632a880b12cccbabfb` of the path `/data/a`, the only path
hashed in these runs. -/
def sampleSum : GoString → Digest := fun _ =>
  ⟨[89, 247, 160, 184, 152, 10, 205, 193, 177, 67, 41, 99, 42, 136, 11, 18, 204, 203, 171, 251],
    rfl⟩

/-- A file system in which every path is a file of `size` bytes last modified at
time `mtime` that can be opened. -/
def sampleFS (size mtime : Int) : LocalFS := ⟨fun _ => some (size, mtime), fun _ => true⟩

/-- A file system in which every path is a file of `size` bytes last modified at
time `mtime` that `os.Open` cannot open (a file without read permission). -/
def lockedFS (size mtime : Int) : LocalFS := ⟨fun _ => some (size, mtime), fun _ => false⟩

/-- A file system in which `os.Stat` fails for every path (a dangling symbolic
link is listed by `ReadDir` but cannot be stat-ed). -/
def danglingFS : LocalFS := ⟨fun _ => none, fun _ => false⟩

/-- An object store holding one object, under the key `data/a`, of 50 bytes and
last modified at time 20. -/
def staleBucket : S3State :=
  ⟨fun k => if k = ascii "data/a" then some (50, 20) else none, 0⟩

/-- The tree with the single file `a`. -/
def sampleTree : Listing := .file (ascii "a") .nil

/-- The flags `-basedir /data -s3bucket backup -region us-east-1 -action download`. -/
def downloadFlags : Flags :=
  ⟨ascii "/data", ascii "backup", ascii "us-east-1", ascii "download"⟩

/-- A cluster of 17 nodes seen from its last node `node-10` (ordinal index 16),
with the bucket `backup` present in the object store. -/
def seventeenthNode : Env S3State where
  logFileOk := true
  nodes := some (sampleRoster 17)
  hostname := ascii "node-10"
  listBuckets := some [ascii "backup"]
  fs := sampleFS 5 100
  files := some sampleTree
  store := recordingStore (fun _ _ => 200) (fun _ _ => true)
  remote := emptyBucket
  sum := sampleSum

/-- The same cluster seen from its first node `node-0`. -/
def firstNode : Env S3State := { seventeenthNode with hostname := ascii "node-0" }

/-- A file is settled in a state of the object store when the decision that
`s3upload` takes for it from its metadata and the stored object is SKIP. -/
def settled (fs : LocalFS) (s : S3State) (p : GoString) : Prop :=
  ∀ sz mt, fs.stat p = some (sz, mt) → syncDecision sz mt (s.objects (p.drop 1)) = .skip

/-- Whether the walk over a tree reaches a directory that cannot be read. -/
def blocked : Listing → Bool
  | .nil => false
  | .file _ rest => blocked rest
  | .dir name contents rest =>
    if stringsHasPrefix name (ascii ".") then blocked rest else blocked contents || blocked rest
  | .unreadable name rest =>
    if stringsHasPrefix name (ascii ".") then blocked rest else true

/-- The first run of the upload walk in the sample setting: the tree with the
single file `/data/a` in the file system `fs`, all 16 buckets owned, an empty
object store that accepts every upload and serves it at time `now`. -/
def sampleFirstRun (fs : LocalFS) (now : Int) : World S3State :=
  s3upload fs (recordingStore (fun _ _ => now) (fun _ _ => true)) sampleSum
    (ascii "/data") buckets (some sampleTree) ⟨emptyBucket, [], false⟩

/-- The second run in the sample setting, started from the object store that
the first run left. -/
def sampleSecondRun (fs : LocalFS) (now : Int) : World S3State :=
  s3upload fs (recordingStore (fun _ _ => now) (fun _ _ => true)) sampleSum
    (ascii "/data") buckets (some sampleTree) ⟨(sampleFirstRun fs now).remote, [], false⟩

/-- A run of the upload walk over the tree with the single file `/data/a` of 100
bytes, last modified at time 10, that cannot be opened, while the object store
holds a 50-byte object last modified at time 20 under its key; all 16 buckets
are owned. -/
def lockedFileRun : World S3State :=
  s3upload (lockedFS 100 10) (recordingStore (fun _ _ => 200) (fun _ _ => true)) sampleSum
    (ascii "/data") buckets (some sampleTree) ⟨staleBucket, [], false⟩

/-- A run of the upload walk over the tree with the single file `/data/a`, which
is empty and was last modified one second before the epoch, with all 16 buckets
owned and an empty object store. -/
def emptyOldFileRun : World S3State :=
  s3upload (sampleFS 0 (-1)) (recordingStore (fun _ _ => 200) (fun _ _ => true)) sampleSum
    (ascii "/data") buckets (some sampleTree) ⟨emptyBucket, [], false⟩

/-! ## The partitioner -/

theorem index_buckets {i : Nat} (hi : i < 16) : index buckets i = .ok (fmtHex i) := by
  have h : buckets[i]? = some (fmtHex i) := by
    simp [buckets, List.getElem?_map, List.getElem?_range hi]
  simp [index, h]

theorem baseLoop_ok (n h : Nat) :
    ∀ (xs : List Nat) (acc : List GoString), (∀ x ∈ xs, x * n + h < 16) →
      baseLoop buckets n h xs acc = .ok (acc ++ xs.map (fun x => fmtHex (x * n + h)))
  | [], acc, _ => by simp [baseLoop]
  | x :: xs, acc, hx => by
    have h1 : x * n + h < 16 := hx x (List.mem_cons_self _ _)
    have h2 : ∀ y ∈ xs, y * n + h < 16 := fun y hy => hx y (List.mem_cons_of_mem _ hy)
    simp [baseLoop, index_buckets h1, baseLoop_ok n h xs _ h2]

theorem divmod_sixteen {n : Nat} (hn : 0 < n) :
    divmod 16 (n : Int) = .ok (((16 / n : Nat) : Int), ((16 % n : Nat) : Int)) := by
  have : (n : Int) ≠ 0 := by omega
  simp [divmod, this]
  constructor
  · exact (Int.ofNat_tdiv 16 n).symm
  · exact (Int.ofNat_tmod 16 n).symm

theorem positions_lt {n h : Nat} (hh : h < n) : ∀ p ∈ positions n h, p < 16 := by
  intro p hp
  have hdm := Nat.div_add_mod 16 n
  have h3 : n * (16 / n) = 16 / n * n := Nat.mul_comm _ _
  simp only [positions, List.mem_append, List.mem_map, List.mem_range] at hp
  rcases hp with ⟨x, hx, rfl⟩ | hp
  · have h4 : (x + 1) * n ≤ 16 / n * n := Nat.mul_le_mul_right n hx
    rw [Nat.succ_mul] at h4
    generalize x * n = a at h4 ⊢
    generalize 16 / n * n = b at h3 h4
    omega
  · split at hp
    · simp only [List.mem_singleton] at hp
      subst hp
      generalize 16 / n * n = b at h3 ⊢
      omega
    · simp at hp

theorem assignJob_eq_positions (nodeList : List GoString) (name : GoString)
    (hne : nodeList ≠ []) (hh : hostIndexLoop name nodeList 0 0 < nodeList.length) :
    assignJob nodeList name =
      .ok ((positions nodeList.length (hostIndexLoop name nodeList 0 0)).map fmtHex) := by
  have hn : 0 < nodeList.length := List.length_pos.mpr hne
  have hp := positions_lt hh
  have hbase : ∀ x ∈ List.range (16 / nodeList.length),
      x * nodeList.length + hostIndexLoop name nodeList 0 0 < 16 := by
    intro x hx
    apply hp
    simp only [positions, List.mem_append, List.mem_map]
    exact Or.inl ⟨x, hx, rfl⟩
  unfold assignJob
  rw [divmod_sixteen hn]
  simp only [Int.toNat_ofNat, baseLoop_ok _ _ _ _ hbase, List.nil_append, Nat.cast_lt]
  by_cases hr : hostIndexLoop name nodeList 0 0 < 16 % nodeList.length
  · have hlast : 16 / nodeList.length * nodeList.length + hostIndexLoop name nodeList 0 0 < 16 := by
      apply hp
      simp [positions, hr]
    simp [hr, index_buckets hlast, positions]
  · simp [hr, positions]

theorem hostIndexLoop_not_mem (name : GoString) :
    ∀ (l : List GoString) (k h : Nat), name ∉ l → hostIndexLoop name l k h = h
  | [], _, _, _ => rfl
  | v :: rest, k, h, hm => by
    have h1 : name ≠ v := fun e => hm (e ▸ List.mem_cons_self _ _)
    have h2 : name ∉ rest := fun e => hm (List.mem_cons_of_mem _ e)
    simp [hostIndexLoop, h1, hostIndexLoop_not_mem name rest _ _ h2]

theorem hostIndexLoop_get :
    ∀ (l : List GoString) (k h i : Nat) (hi : i < l.length), l.Nodup →
      hostIndexLoop (l.get ⟨i, hi⟩) l k h = k + i
  | [], _, _, _, hi, _ => absurd hi (Nat.not_lt_zero _)
  | v :: rest, k, h, 0, _, hd => by
    have hv : v ∉ rest := (List.nodup_cons.mp hd).1
    simp [hostIndexLoop, hostIndexLoop_not_mem v rest _ _ hv]
  | v :: rest, k, h, i + 1, hi, hd => by
    have hd2 : rest.Nodup := (List.nodup_cons.mp hd).2
    have hi2 : i < rest.length := Nat.lt_of_succ_lt_succ hi
    have hne : rest.get ⟨i, hi2⟩ ≠ v := by
      intro e
      exact (List.nodup_cons.mp hd).1 (e ▸ List.get_mem rest i hi2)
    have ih := hostIndexLoop_get rest (k + 1) h i hi2 hd2
    simp only [List.get_eq_getElem, List.getElem_cons_succ] at ih hne ⊢
    simp only [hostIndexLoop, hne, if_false, ih]
    omega

theorem hostIndexLoop_bound (name : GoString) :
    ∀ (l : List GoString) (k h : Nat),
      hostIndexLoop name l k h = h ∨
        (k ≤ hostIndexLoop name l k h ∧ hostIndexLoop name l k h < k + l.length)
  | [], _, _ => Or.inl rfl
  | v :: rest, k, h => by
    simp only [hostIndexLoop, List.length_cons]
    rcases hostIndexLoop_bound name rest (k + 1) (if name = v then k else h) with e | ⟨e1, e2⟩
    · rw [e]
      by_cases hv : name = v
      · simp only [hv, if_true]; right; omega
      · simp only [hv, if_false]; left; trivial
    · right; omega

theorem hostIndexLoop_lt (name : GoString) (l : List GoString) (hne : l ≠ []) :
    hostIndexLoop name l 0 0 < l.length := by
  have hn : 0 < l.length := List.length_pos.mpr hne
  rcases hostIndexLoop_bound name l 0 0 with e | ⟨_, e2⟩
  · rw [e]; exact hn
  · omega

theorem positions_eq_filter {n h : Nat} (hn : 0 < n) (hh : h < n) :
    positions n h = (List.range 16).filter (fun p => p % n = h) := by
  by_cases hbig : 16 < n
  · have hq : 16 / n = 0 := Nat.div_eq_of_lt hbig
    have hr : 16 % n = 16 := Nat.mod_eq_of_lt hbig
    have hf : (List.range 16).filter (fun p => decide (p % n = h)) =
        (List.range 16).filter (fun p => decide (p = h)) := by
      apply List.filter_congr
      intro p hp
      rw [Nat.mod_eq_of_lt (Nat.lt_trans (List.mem_range.mp hp) hbig)]
    rw [hf]
    simp only [positions, hq, hr]
    by_cases h16 : h < 16
    · simp only [h16, if_true, List.range_zero, List.map_nil, List.nil_append, Nat.zero_mul,
        Nat.zero_add]
      interval_cases h <;> decide
    · simp only [h16, if_false, List.range_zero, List.map_nil, List.append_nil]
      symm
      rw [List.filter_eq_nil_iff]
      intro p hp
      have := List.mem_range.mp hp
      simp
      omega
  · have hle : n ≤ 16 := Nat.le_of_not_lt hbig
    interval_cases n <;> interval_cases h <;> decide

theorem fmtHex_injOn {p q : Nat} (hp : p < 16) (hq : q < 16) (h : fmtHex p = fmtHex q) :
    p = q := by
  interval_cases p <;> interval_cases q <;> first | rfl | exact absurd h (by decide)

theorem mem_buckets {b : GoString} : b ∈ buckets ↔ ∃ p, p < 16 ∧ fmtHex p = b := by
  simp [buckets]

theorem assignJob_get (roster : List GoString) (hd : roster.Nodup) (i : Fin roster.length) :
    assignJob roster (roster.get i) =
      .ok (((List.range 16).filter (fun p => p % roster.length = i.val)).map fmtHex) := by
  have hne : roster ≠ [] := List.length_pos.mp (Nat.lt_of_le_of_lt (Nat.zero_le _) i.isLt)
  have hi : hostIndexLoop (roster.get i) roster 0 0 = i.val := by
    have := hostIndexLoop_get roster 0 0 i.val i.isLt hd
    simpa using this
  rw [assignJob_eq_positions roster _ hne (by rw [hi]; exact i.isLt), hi,
    positions_eq_filter (List.length_pos.mpr hne) i.isLt]

/-- C1: for a roster of N >= 1 pairwise distinct names, the lists
`assignJob(roster, roster[i])`, i = 0..N-1, partition the 16 bucket labels
"0".."f": every list is duplicate-free and made of bucket labels, and every
bucket label is in the list of exactly one ordinal index. -/
theorem assignJob_partitions_buckets (roster : List GoString) (hN : 1 ≤ roster.length)
    (hd : roster.Nodup) :
    buckets = (ascii "0123456789abcdef").map (fun c => [c]) ∧
    (∀ i : Fin roster.length, ∃ bs, assignJob roster (roster.get i) = .ok bs ∧
      bs.Nodup ∧ ∀ b ∈ bs, b ∈ buckets) ∧
    (∀ b ∈ buckets, ∃! i : Fin roster.length,
      ∃ bs, assignJob roster (roster.get i) = .ok bs ∧ b ∈ bs) := by
  refine ⟨by decide, ?_, ?_⟩
  · intro i
    refine ⟨_, assignJob_get roster hd i, ?_, ?_⟩
    · refine List.Nodup.map_on ?_ ((List.nodup_range 16).filter _)
      intro p hp q hq hpq
      exact fmtHex_injOn (List.mem_range.mp (List.mem_filter.mp hp).1)
        (List.mem_range.mp (List.mem_filter.mp hq).1) hpq
    · intro b hb
      obtain ⟨p, hp, rfl⟩ := List.mem_map.mp hb
      exact mem_buckets.mpr ⟨p, List.mem_range.mp (List.mem_filter.mp hp).1, rfl⟩
  · intro b hb
    obtain ⟨p, hp, rfl⟩ := mem_buckets.mp hb
    have hpos : 0 < roster.length := hN
    refine ⟨⟨p % roster.length, Nat.mod_lt _ hpos⟩, ⟨_, assignJob_get roster hd _, ?_⟩, ?_⟩
    · exact List.mem_map.mpr ⟨p, List.mem_filter.mpr ⟨List.mem_range.mpr hp, by simp⟩, rfl⟩
    · rintro j ⟨bs, hbs, hmem⟩
      rw [assignJob_get roster hd j] at hbs
      cases hbs
      obtain ⟨q, hq, hpq⟩ := List.mem_map.mp hmem
      have hq16 : q < 16 := List.mem_range.mp (List.mem_filter.mp hq).1
      have hqj : q % roster.length = j.val := by simpa using (List.mem_filter.mp hq).2
      have : q = p := fmtHex_injOn hq16 hp hpq
      subst this
      exact Fin.ext hqj.symm

theorem assignJob_partitions_buckets_witness :
    buckets = (ascii "0123456789abcdef").map (fun c => [c]) ∧
    (∀ i : Fin (sampleRoster 3).length, ∃ bs,
      assignJob (sampleRoster 3) ((sampleRoster 3).get i) = .ok bs ∧
      bs.Nodup ∧ ∀ b ∈ bs, b ∈ buckets) ∧
    (∀ b ∈ buckets, ∃! i : Fin (sampleRoster 3).length,
      ∃ bs, assignJob (sampleRoster 3) ((sampleRoster 3).get i) = .ok bs ∧ b ∈ bs) :=
  assignJob_partitions_buckets (sampleRoster 3) (by decide) (by decide)

theorem positions_large {n h : Nat} (hn : 16 ≤ n) (hh : h < n) :
    positions n h = if h < 16 then [h] else [] := by
  rcases Nat.eq_or_lt_of_le hn with h16 | h16
  · subst h16
    interval_cases h <;> decide
  · have hq : 16 / n = 0 := Nat.div_eq_of_lt h16
    have hr : 16 % n = 16 := Nat.mod_eq_of_lt h16
    simp [positions, hq, hr]

/-- C6: for a roster of N >= 16 pairwise distinct names, the node at ordinal
index i receives exactly the one bucket at position i of the enumeration 0..f
when i < 16 and the empty list when i >= 16. -/
theorem assignJob_large_roster (roster : List GoString) (hN : 16 ≤ roster.length)
    (hd : roster.Nodup) (i : Fin roster.length) :
    assignJob roster (roster.get i) = .ok (if i.val < 16 then [fmtHex i.val] else []) ∧
    (i.val < 16 → buckets[i.val]? = some (fmtHex i.val)) := by
  constructor
  · rw [assignJob_get roster hd i]
    have hpos : 0 < roster.length := Nat.lt_of_lt_of_le (by decide) hN
    have hf : (List.range 16).filter (fun p => decide (p % roster.length = i.val)) =
        if i.val < 16 then [i.val] else [] := by
      rw [← positions_eq_filter hpos i.isLt]
      exact positions_large hN i.isLt
    rw [hf]
    split <;> simp
  · intro hi
    simp [buckets, List.getElem?_map, List.getElem?_range hi]

theorem assignJob_large_roster_witness :
    assignJob (sampleRoster 17) ((sampleRoster 17).get ⟨16, by decide⟩) =
      .ok (if (16 : Nat) < 16 then [fmtHex 16] else []) ∧
    ((16 : Nat) < 16 → buckets[16]? = some (fmtHex 16)) :=
  assignJob_large_roster (sampleRoster 17) (by decide) (by decide) ⟨16, by decide⟩

/-- C7: `assignJob` fails if and only if the roster is empty. For the empty
roster it stops at the division (the Go runtime panics with "integer divide by
zero"); for a roster of N >= 1 names and any name, every bucket position it
indexes is below 16 and it returns the labels at these positions. -/
theorem assignJob_fails_iff_empty (nodeList : List GoString) (name : GoString) :
    ((∃ e, assignJob nodeList name = .error e) ↔ nodeList = []) ∧
    (nodeList = [] → assignJob nodeList name = .error .divideByZero) ∧
    (nodeList ≠ [] →
      (∀ p ∈ positions nodeList.length (hostIndexLoop name nodeList 0 0), p < 16) ∧
      assignJob nodeList name =
        .ok ((positions nodeList.length (hostIndexLoop name nodeList 0 0)).map fmtHex)) := by
  have hempty : nodeList = [] → assignJob nodeList name = .error .divideByZero := by
    intro h
    subst h
    rfl
  have hok : nodeList ≠ [] → assignJob nodeList name =
      .ok ((positions nodeList.length (hostIndexLoop name nodeList 0 0)).map fmtHex) :=
    fun h => assignJob_eq_positions nodeList name h (hostIndexLoop_lt name nodeList h)
  refine ⟨⟨?_, fun h => ⟨_, hempty h⟩⟩, hempty, fun h =>
    ⟨positions_lt (hostIndexLoop_lt name nodeList h), hok h⟩⟩
  rintro ⟨e, he⟩
  by_contra hne
  rw [hok hne] at he
  cases he

/-- C8: for a roster of N >= 1 names and a name that equals no roster entry,
the host index stays 0 and `assignJob` returns, without failing, the bucket
labels at the positions 0, N, 2N, ... below 16 in ascending order. -/
theorem assignJob_absent_name (roster : List GoString) (name : GoString)
    (hN : 1 ≤ roster.length) (habs : name ∉ roster) :
    hostIndexLoop name roster 0 0 = 0 ∧
    assignJob roster name =
      .ok (((List.range 16).filter (fun p => p % roster.length = 0)).map fmtHex) := by
  have hne : roster ≠ [] := List.length_pos.mp hN
  have h0 : hostIndexLoop name roster 0 0 = 0 := hostIndexLoop_not_mem name roster 0 0 habs
  refine ⟨h0, ?_⟩
  rw [assignJob_eq_positions roster name hne (by rw [h0]; exact hN), h0,
    positions_eq_filter hN hN]

theorem assignJob_absent_name_witness :
    hostIndexLoop (ascii "stranger") (sampleRoster 5) 0 0 = 0 ∧
    assignJob (sampleRoster 5) (ascii "stranger") =
      .ok (((List.range 16).filter (fun p => p % (sampleRoster 5).length = 0)).map fmtHex) :=
  assignJob_absent_name (sampleRoster 5) (ascii "stranger") (by decide) (by decide)

/-! ## The path router -/

theorem hextable_getD {k : Nat} (hk : k < 16) : [hextable.getD k 0] = fmtHex k := by
  interval_cases k <;> decide

/-- C4: the routed bucket of a path is determined by the digest of that path
alone, is a one-byte string, and is one of the 16 labels that `assignJob`
enumerates with the `%x` format: the label of the high half of the first digest
byte. -/
theorem route_mem_buckets (sum : GoString → Digest) (filePath : GoString) :
    route sum filePath ∈ buckets ∧
    (route sum filePath).length = 1 ∧
    (∃ v ∈ (sum filePath).val.head?, route sum filePath = fmtHex (v.val / 16)) ∧
    (∀ sum2 : GoString → Digest, sum2 filePath = sum filePath →
      route sum2 filePath = route sum filePath) := by
  have key : ∀ s : Digest, ∃ v ∈ s.val.head?,
      (hexEncodeToString s.val).take 1 = fmtHex (v.val / 16) := by
    rintro ⟨d, hd⟩
    cases d with
    | nil => simp at hd
    | cons v rest =>
      have hv : v.val / 16 < 16 := by omega
      refine ⟨v, by simp, ?_⟩
      rw [← hextable_getD hv]
      simp [hexEncodeToString]
  obtain ⟨v, hv, hr⟩ := key (sum filePath)
  change route sum filePath = _ at hr
  have hlt : v.val / 16 < 16 := by omega
  refine ⟨?_, ?_, ⟨v, hv, hr⟩, ?_⟩
  · rw [hr]; exact mem_buckets.mpr ⟨_, hlt, rfl⟩
  · rw [hr, ← hextable_getD hlt]; rfl
  · intro sum2 h
    simp only [route, h]

/-! ## The sync decision -/

/-- C2 (the code departs from it): with the probe reporting the object as
absent, the decision is to upload as `NEW` unless the file is empty and its
modification time is before the epoch; a zero-byte file with modification time
-1 is skipped: the walk probes its key, prints SKIP and uploads nothing. -/
theorem syncDecision_absent_skips_empty_old_file :
    syncDecision 0 (-1) none = .skip ∧
    emptyOldFileRun.trace = [.headObject (ascii "data/a"), .skip (ascii "/data/a")] ∧
    emptyOldFileRun.remote.objects (ascii "data/a") = none ∧
    (∀ fileSize fileModified : Int,
      syncDecision fileSize fileModified none =
        if fileModified < 0 ∧ fileSize = 0 then .skip else .upload "NEW") := by
  refine ⟨by decide, by decide, by decide, ?_⟩
  intro fileSize fileModified
  simp only [syncDecision, Bool.and_eq_true, decide_eq_true_eq, beq_iff_eq]

/-- C3 as stated fails: for the local file {size 100, mtime 10} and the present
remote object {size 50, mtime 20} the decision is MODIFIED, but the file cannot
be opened, so the walk logs the failure and makes no upload request: the object
store receives none and keeps the old object. -/
theorem modified_file_not_uploaded_when_unopenable :
    syncDecision 100 10 (some (50, 20)) = .upload "MOD" ∧
    lockedFileRun.trace = [.headObject (ascii "data/a"), .cannotOpen (ascii "/data/a")] ∧
    (∀ e ∈ lockedFileRun.trace, e.isUpload = false) ∧
    lockedFileRun.remote.uploads = 0 ∧
    lockedFileRun.remote.objects (ascii "data/a") = some (50, 20) := by
  refine ⟨by decide, by decide, by decide, by decide, by decide⟩

/-- C3 (amended): for a present remote object the decision is SKIP exactly when
the local file is strictly older than the object and has the same size, and
MODIFIED in every other case; the three rows of the truth table hold. In the
walk, after the probe, a SKIP leaves the object store alone; a MODIFIED file
that can be opened is uploaded (one `Upload` request with the file's key and
size, reported as `MOD`, whose result and new store state are those of the
store); a MODIFIED file that cannot be opened is logged and not uploaded. -/
theorem syncDecision_present (fileSize fileModified objectSize objectModified : Int) :
    (syncDecision fileSize fileModified (some (objectSize, objectModified)) = .skip ↔
      (fileModified < objectModified ∧ fileSize = objectSize)) ∧
    (syncDecision fileSize fileModified (some (objectSize, objectModified)) = .upload "MOD" ↔
      ¬ (fileModified < objectModified ∧ fileSize = objectSize)) ∧
    syncDecision 100 10 (some (100, 20)) = .skip ∧
    syncDecision 100 10 (some (50, 20)) = .upload "MOD" ∧
    syncDecision 100 30 (some (100, 20)) = .upload "MOD" ∧
    (∀ (σ : Type) (fs : LocalFS) (store : ObjectStore σ) (filePath : GoString) (w : World σ)
      (s1 : σ),
      fs.stat filePath = some (fileSize, fileModified) →
      store.headObject w.remote (filePath.drop 1) = (some (objectSize, objectModified), s1) →
      syncFile fs store filePath w =
        if fileModified < objectModified ∧ fileSize = objectSize then
          ⟨s1, w.trace ++ [.headObject (filePath.drop 1), .skip filePath], w.exited⟩
        else if fs.canOpen filePath = true then
          ⟨(store.upload s1 (filePath.drop 1) fileSize).2,
            w.trace ++ [.headObject (filePath.drop 1),
              .upload (filePath.drop 1) "MOD" (store.upload s1 (filePath.drop 1) fileSize).1],
            w.exited⟩
        else
          ⟨s1, w.trace ++ [.headObject (filePath.drop 1), .cannotOpen filePath], w.exited⟩) := by
  have hskip : fileModified < objectModified ∧ fileSize = objectSize →
      syncDecision fileSize fileModified (some (objectSize, objectModified)) = .skip := by
    intro h
    simp [syncDecision, h]
  have hmod : ¬ (fileModified < objectModified ∧ fileSize = objectSize) →
      syncDecision fileSize fileModified (some (objectSize, objectModified)) = .upload "MOD" := by
    intro h
    simp only [syncDecision, Bool.and_eq_true, decide_eq_true_eq, beq_iff_eq, h, if_false]
  refine ⟨?_, ?_, by decide, by decide, by decide, ?_⟩
  · by_cases h : fileModified < objectModified ∧ fileSize = objectSize
    · exact ⟨fun _ => h, fun _ => hskip h⟩
    · refine ⟨fun e => ?_, fun hh => absurd hh h⟩
      rw [hmod h] at e
      cases e
  · by_cases h : fileModified < objectModified ∧ fileSize = objectSize
    · refine ⟨fun e => ?_, fun hn => absurd h hn⟩
      rw [hskip h] at e
      cases e
    · exact ⟨fun _ => h, fun _ => hmod h⟩
  · intro σ fs store filePath w s1 hstat hhead
    by_cases h : fileModified < objectModified ∧ fileSize = objectSize
    · rw [if_pos h]
      simp only [syncFile, hstat, hhead, hskip h]
    · rw [if_neg h]
      cases hopen : fs.canOpen filePath with
      | true => simp only [syncFile, hstat, hhead, hmod h, hopen, if_true]
      | false =>
        simp only [syncFile, hstat, hhead, hmod h, hopen, Bool.false_eq_true, if_false]

theorem syncDecision_present_witness :
    syncFile (sampleFS 100 10) (recordingStore (fun _ _ => 200) (fun _ _ => true))
        (ascii "/data/a") ⟨staleBucket, [], false⟩ =
      if (10 : Int) < 20 ∧ (100 : Int) = 50 then
        ⟨staleBucket, [] ++ [.headObject ((ascii "/data/a").drop 1), .skip (ascii "/data/a")],
          false⟩
      else if (sampleFS 100 10).canOpen (ascii "/data/a") = true then
        ⟨((recordingStore (fun _ _ => 200) (fun _ _ => true)).upload staleBucket
            ((ascii "/data/a").drop 1) 100).2,
          [] ++ [.headObject ((ascii "/data/a").drop 1),
            .upload ((ascii "/data/a").drop 1) "MOD"
              ((recordingStore (fun _ _ => 200) (fun _ _ => true)).upload staleBucket
                ((ascii "/data/a").drop 1) 100).1],
          false⟩
      else
        ⟨staleBucket,
          [] ++ [.headObject ((ascii "/data/a").drop 1), .cannotOpen (ascii "/data/a")], false⟩ :=
  (syncDecision_present 100 10 50 20).2.2.2.2.2 S3State (sampleFS 100 10)
    (recordingStore (fun _ _ => 200) (fun _ _ => true)) (ascii "/data/a")
    ⟨staleBucket, [], false⟩ staleBucket rfl rfl

/-! ## The tree walker: ownership isolation -/

theorem syncFile_trace {σ : Type} (fs : LocalFS) (store : ObjectStore σ) (filePath : GoString)
    (w : World σ) :
    ∃ extra, (syncFile fs store filePath w).trace = w.trace ++ extra ∧
      ∀ e ∈ extra, ∀ key, e.touches key = true → key = filePath.drop 1 := by
  unfold syncFile
  split
  · exact ⟨_, rfl, by simp [Event.touches]⟩
  · dsimp only
    split
    · exact ⟨_, rfl, by simp [Event.touches]⟩
    · split
      · exact ⟨_, rfl, by simp [Event.touches]⟩
      · exact ⟨_, rfl, by simp [Event.touches]⟩

theorem bucketLoop_trace {σ : Type} (fs : LocalFS) (store : ObjectStore σ)
    (filePath bucket : GoString) :
    ∀ (xs : List GoString) (w : World σ),
      ∃ extra, (bucketLoop fs store filePath bucket xs w).trace = w.trace ++ extra ∧
        ∀ e ∈ extra, bucket ∈ xs ∧ ∀ key, e.touches key = true → key = filePath.drop 1
  | [], w => ⟨[], by simp [bucketLoop], by simp⟩
  | x :: xs, w => by
    simp only [bucketLoop]
    by_cases hx : x = bucket
    · simp only [hx, if_true]
      obtain ⟨e1, h1, p1⟩ := syncFile_trace fs store filePath w
      obtain ⟨e2, h2, p2⟩ := bucketLoop_trace fs store filePath bucket xs (syncFile fs store filePath w)
      refine ⟨e1 ++ e2, by rw [h2, h1, List.append_assoc], ?_⟩
      intro e he
      refine ⟨List.mem_cons_self _ _, ?_⟩
      rcases List.mem_append.mp he with h | h
      · exact p1 e h
      · exact (p2 e h).2
    · simp only [hx, if_false]
      obtain ⟨e2, h2, p2⟩ := bucketLoop_trace fs store filePath bucket xs w
      exact ⟨e2, h2, fun e he => ⟨List.mem_cons_of_mem _ (p2 e he).1, (p2 e he).2⟩⟩

theorem walk_trace {σ : Type} (fs : LocalFS) (store : ObjectStore σ) (sum : GoString → Digest)
    (myBuckets : List GoString) :
    ∀ (listing : Listing) (basedir : GoString) (w : World σ),
      ∃ extra, (walk fs store sum myBuckets basedir listing w).trace = w.trace ++ extra ∧
        ∀ e ∈ extra, ∀ key, e.touches key = true →
          ∃ p ∈ regularFiles basedir listing, p.drop 1 = key ∧ route sum p ∈ myBuckets := by
  intro listing
  induction listing with
  | nil => intro basedir w; exact ⟨[], by simp [walk], by simp⟩
  | file name rest ih =>
    intro basedir w
    simp only [walk]
    split
    · exact ⟨[], by simp, by simp⟩
    · split
      · obtain ⟨e, h, p⟩ := ih basedir w
        refine ⟨e, h, fun ev hev key hk => ?_⟩
        obtain ⟨q, hq, hq2⟩ := p ev hev key hk
        exact ⟨q, by simp [regularFiles, hq], hq2⟩
      · obtain ⟨e1, h1, p1⟩ := bucketLoop_trace fs store (basedir ++ ascii "/" ++ name)
          (route sum (basedir ++ ascii "/" ++ name)) myBuckets w
        obtain ⟨e2, h2, p2⟩ := ih basedir (bucketLoop fs store (basedir ++ ascii "/" ++ name)
          (route sum (basedir ++ ascii "/" ++ name)) myBuckets w)
        refine ⟨e1 ++ e2, by rw [h2, h1, List.append_assoc], fun ev hev key hk => ?_⟩
        rcases List.mem_append.mp hev with hm | hm
        · obtain ⟨hown, hkey⟩ := p1 ev hm
          exact ⟨_, by simp [regularFiles], (hkey key hk).symm, hown⟩
        · obtain ⟨q, hq, hq2⟩ := p2 ev hm key hk
          exact ⟨q, by simp [regularFiles, hq], hq2⟩
  | dir name contents rest ihc ihr =>
    intro basedir w
    simp only [walk]
    split
    · exact ⟨[], by simp, by simp⟩
    · split
      · obtain ⟨e, h, p⟩ := ihr basedir w
        refine ⟨e, h, fun ev hev key hk => ?_⟩
        obtain ⟨q, hq, hq2⟩ := p ev hev key hk
        exact ⟨q, by simp [regularFiles, hq], hq2⟩
      · obtain ⟨e1, h1, p1⟩ := ihc (basedir ++ ascii "/" ++ name) w
        obtain ⟨e2, h2, p2⟩ := ihr basedir
          (walk fs store sum myBuckets (basedir ++ ascii "/" ++ name) contents w)
        refine ⟨e1 ++ e2, by rw [h2, h1, List.append_assoc], fun ev hev key hk => ?_⟩
        rcases List.mem_append.mp hev with hm | hm
        · obtain ⟨q, hq, hq2⟩ := p1 ev hm key hk
          exact ⟨q, List.mem_append.mpr (Or.inl hq), hq2⟩
        · obtain ⟨q, hq, hq2⟩ := p2 ev hm key hk
          exact ⟨q, List.mem_append.mpr (Or.inr hq), hq2⟩
  | unreadable name rest ih =>
    intro basedir w
    simp only [walk]
    split
    · exact ⟨[], by simp, by simp⟩
    · split
      · obtain ⟨e, h, p⟩ := ih basedir w
        refine ⟨e, h, fun ev hev key hk => ?_⟩
        obtain ⟨q, hq, hq2⟩ := p ev hev key hk
        exact ⟨q, by simp [regularFiles, hq], hq2⟩
      · exact ⟨[], by simp, by simp⟩

theorem regularFiles_shape :
    ∀ (listing : Listing) (basedir : GoString), ∀ p ∈ regularFiles basedir listing,
      ∃ t, p = basedir ++ ascii "/" ++ t := by
  intro listing
  induction listing with
  | nil => intro basedir p hp; simp [regularFiles] at hp
  | file name rest ih =>
    intro basedir p hp
    simp only [regularFiles, List.mem_cons] at hp
    rcases hp with rfl | hp
    · exact ⟨name, rfl⟩
    · exact ih basedir p hp
  | dir name contents rest ihc ihr =>
    intro basedir p hp
    simp only [regularFiles, List.mem_append] at hp
    rcases hp with hp | hp
    · obtain ⟨t, rfl⟩ := ihc _ p hp
      exact ⟨name ++ ascii "/" ++ t, by simp [List.append_assoc]⟩
    · exact ihr basedir p hp
  | unreadable name rest ih =>
    intro basedir p hp
    simp only [regularFiles] at hp
    exact ih basedir p hp

theorem drop_one_inj (basedir t1 t2 : GoString)
    (h : (basedir ++ ascii "/" ++ t1).drop 1 = (basedir ++ ascii "/" ++ t2).drop 1) :
    basedir ++ ascii "/" ++ t1 = basedir ++ ascii "/" ++ t2 := by
  cases basedir with
  | nil =>
    have e : ∀ t : GoString, [] ++ ascii "/" ++ t = (47 : Byte) :: t := fun _ => rfl
    rw [e, e] at h ⊢
    simpa using h
  | cons b bs =>
    simp only [List.cons_append, List.drop_succ_cons, List.drop_zero] at h ⊢
    rw [h]

theorem regularFiles_key_inj (listing : Listing) (basedir p q : GoString)
    (hp : p ∈ regularFiles basedir listing) (hq : q ∈ regularFiles basedir listing)
    (h : p.drop 1 = q.drop 1) : p = q := by
  obtain ⟨t1, rfl⟩ := regularFiles_shape listing basedir p hp
  obtain ⟨t2, rfl⟩ := regularFiles_shape listing basedir q hq
  exact drop_one_inj basedir t1 t2 h

/-- C5: in a run of `s3upload` over any directory tree with any owned-bucket
list, every key that is probed or uploaded is the key of a regular file of the
tree whose routed bucket is in `myBuckets`; for a regular file whose routed
bucket is not in `myBuckets`, no probe and no upload is made for its key. -/
theorem s3upload_ownership_isolation {σ : Type} (fs : LocalFS) (store : ObjectStore σ)
    (sum : GoString → Digest) (basedir : GoString) (myBuckets : List GoString)
    (listing : Listing) (remote : σ) :
    (∀ e ∈ (s3upload fs store sum basedir myBuckets (some listing) ⟨remote, [], false⟩).trace,
      ∀ key, e.touches key = true →
        ∃ p ∈ regularFiles basedir listing, p.drop 1 = key ∧ route sum p ∈ myBuckets) ∧
    (∀ p ∈ regularFiles basedir listing, route sum p ∉ myBuckets →
      ∀ e ∈ (s3upload fs store sum basedir myBuckets (some listing) ⟨remote, [], false⟩).trace,
        e.touches (p.drop 1) = false) ∧
    (s3upload fs store sum basedir myBuckets none ⟨remote, [], false⟩).trace = [] := by
  have h1 : ∀ e ∈ (s3upload fs store sum basedir myBuckets (some listing)
      ⟨remote, [], false⟩).trace, ∀ key, e.touches key = true →
        ∃ p ∈ regularFiles basedir listing, p.drop 1 = key ∧ route sum p ∈ myBuckets := by
    obtain ⟨extra, he, hp⟩ := walk_trace fs store sum myBuckets listing basedir ⟨remote, [], false⟩
    intro e hmem
    simp only [s3upload, he, List.nil_append] at hmem
    exact hp e hmem
  refine ⟨h1, ?_, rfl⟩
  intro p hp hnot e he
  cases htouch : e.touches (p.drop 1) with
  | false => rfl
  | true =>
    obtain ⟨q, hq, hkey, hown⟩ := h1 e he _ htouch
    have : q = p := regularFiles_key_inj listing basedir q p hq hp hkey
    subst this
    exact absurd hown hnot

/-! ## The command dispatch -/

theorem assignJob_nil_large (nodeList : List GoString) (name : GoString)
    (h : assignJob nodeList name = .ok []) : 16 < nodeList.length := by
  have hne : nodeList ≠ [] := by
    intro e
    subst e
    cases h
  rw [assignJob_eq_positions nodeList name hne (hostIndexLoop_lt name nodeList hne)] at h
  have hnil : positions nodeList.length (hostIndexLoop name nodeList 0 0) = [] := by
    simpa using h
  by_contra hle
  have hq : 0 < 16 / nodeList.length :=
    Nat.div_pos (Nat.le_of_not_lt hle) (List.length_pos.mpr hne)
  have : (List.range (16 / nodeList.length)) = [] := by
    simp only [positions, List.append_eq_nil, List.map_eq_nil_iff] at hnil
    exact hnil.1
  rw [List.range_eq_nil] at this
  omega

/-- C10 as stated fails: on the 17th node of a 17-node cluster, which owns no
bucket, a run with `-action download` exits with status 0. -/
theorem main_download_exits_zero :
    downloadFlags.action = ascii "download" ∧
    assignJob (sampleRoster 17) (ascii "node-10") = .ok [] ∧
    main downloadFlags seventeenthNode = ⟨0, []⟩ := by
  refine ⟨rfl, rfl, rfl⟩

/-- C10 (amended): a run with `-action download` does no sync work, and its
exit status is nonzero except when the startup checks pass and the node is
assigned no bucket, which requires a roster of more than 16 nodes; in that case
the guard `len(myBuckets) < 1` ends the run with status 0 before the action is
looked at. -/
theorem main_download {σ : Type} (flags : Flags) (env : Env σ)
    (hact : flags.action = ascii "download") :
    (main flags env).trace = [] ∧
    ((main flags env).status = 0 ↔
      (flags.basedir ≠ ascii "" ∧ flags.s3bucket ≠ ascii "" ∧ flags.region ≠ ascii "") ∧
      env.logFileOk = true ∧
      ∃ nodeList, env.nodes = some nodeList ∧ assignJob nodeList env.hostname = .ok [] ∧
        16 < nodeList.length) := by
  have hne : ascii "download" ≠ ascii "upload" := by decide
  by_cases hflags : flags.basedir = ascii "" ∨ flags.s3bucket = ascii "" ∨ flags.region = ascii ""
  · have hm : main flags env = ⟨1, []⟩ := by simp only [main, if_pos hflags]
    rw [hm]
    refine ⟨rfl, fun h => absurd h (by decide), ?_⟩
    rintro ⟨⟨h1, h2, h3⟩, _⟩
    rcases hflags with h | h | h
    · exact absurd h h1
    · exact absurd h h2
    · exact absurd h h3
  · have hflags2 : flags.basedir ≠ ascii "" ∧ flags.s3bucket ≠ ascii "" ∧
        flags.region ≠ ascii "" :=
      ⟨fun h => hflags (Or.inl h), fun h => hflags (Or.inr (Or.inl h)),
        fun h => hflags (Or.inr (Or.inr h))⟩
    cases hlog : env.logFileOk with
    | false =>
      have hm : main flags env = ⟨1, []⟩ := by simp [main, hflags, hlog]
      rw [hm]
      exact ⟨rfl, fun h => absurd h (by decide), fun h => absurd h.2.1 (by decide)⟩
    | true =>
      cases hnodes : env.nodes with
      | none =>
        have hm : main flags env = ⟨1, []⟩ := by simp [main, hflags, hlog, hnodes]
        rw [hm]
        refine ⟨rfl, fun h => absurd h (by decide), ?_⟩
        rintro ⟨_, _, nl, hnl, _⟩
        cases hnl
      | some nodeList =>
        cases hassign : assignJob nodeList env.hostname with
        | error e =>
          have hm : main flags env = ⟨2, []⟩ := by simp [main, hflags, hlog, hnodes, hassign]
          rw [hm]
          refine ⟨rfl, fun h => absurd h (by decide), ?_⟩
          rintro ⟨_, _, nl, hnl, hnil, _⟩
          cases hnl
          rw [hassign] at hnil
          cases hnil
        | ok myBuckets =>
          cases myBuckets with
          | nil =>
            have hm : main flags env = ⟨0, []⟩ := by simp [main, hflags, hlog, hnodes, hassign]
            rw [hm]
            exact ⟨rfl, fun _ => ⟨hflags2, rfl, nodeList, rfl, hassign,
              assignJob_nil_large nodeList env.hostname hassign⟩, fun _ => rfl⟩
          | cons b bs =>
            have hm : main flags env = ⟨1, []⟩ := by
              cases hlist : env.listBuckets with
              | none => simp [main, hflags, hlog, hnodes, hassign, hlist]
              | some names =>
                by_cases hall : names.all (fun b => b != flags.s3bucket) = true
                · simp only [main, if_neg hflags, hlog, hnodes, hassign, hlist, hall]
                  simp
                · simp only [main, if_neg hflags, hlog, hnodes, hassign, hlist, hall, hact,
                    if_neg hne]
                  simp
            rw [hm]
            refine ⟨rfl, fun h => absurd h (by decide), ?_⟩
            rintro ⟨_, _, nl, hnl, hnil, _⟩
            cases hnl
            rw [hassign] at hnil
            cases hnil

theorem main_download_witness :
    (main downloadFlags firstNode).trace = [] ∧
    ((main downloadFlags firstNode).status = 0 ↔
      (downloadFlags.basedir ≠ ascii "" ∧ downloadFlags.s3bucket ≠ ascii "" ∧
        downloadFlags.region ≠ ascii "") ∧
      firstNode.logFileOk = true ∧
      ∃ nodeList, firstNode.nodes = some nodeList ∧
        assignJob nodeList firstNode.hostname = .ok [] ∧ 16 < nodeList.length) :=
  main_download downloadFlags firstNode rfl

/-! ## Running the walk twice -/

theorem walk_exited_stays {σ : Type} (fs : LocalFS) (store : ObjectStore σ)
    (sum : GoString → Digest) (myBuckets : List GoString) (basedir : GoString)
    (listing : Listing) (w : World σ) (h : w.exited = true) :
    walk fs store sum myBuckets basedir listing w = w := by
  cases listing <;> simp [walk, h]

theorem syncFile_exited {σ : Type} (fs : LocalFS) (store : ObjectStore σ) (p : GoString)
    (w : World σ) : (syncFile fs store p w).exited = w.exited := by
  unfold syncFile
  split
  · rfl
  · dsimp only
    split
    · rfl
    · split <;> rfl

theorem bucketLoop_exited {σ : Type} (fs : LocalFS) (store : ObjectStore σ)
    (p bucket : GoString) :
    ∀ (xs : List GoString) (w : World σ), (bucketLoop fs store p bucket xs w).exited = w.exited
  | [], _ => rfl
  | x :: xs, w => by
    simp only [bucketLoop]
    rw [bucketLoop_exited fs store p bucket xs]
    split
    · exact syncFile_exited fs store p w
    · rfl

theorem walk_exited {σ : Type} (fs : LocalFS) (store : ObjectStore σ) (sum : GoString → Digest)
    (myBuckets : List GoString) :
    ∀ (listing : Listing) (basedir : GoString) (w : World σ),
      (walk fs store sum myBuckets basedir listing w).exited = (w.exited || blocked listing) := by
  intro listing
  induction listing with
  | nil => intro basedir w; simp [walk, blocked]
  | file name rest ih =>
    intro basedir w
    cases hw : w.exited with
    | true => rw [walk_exited_stays _ _ _ _ _ _ _ hw, hw]; rfl
    | false =>
      simp only [walk, hw, blocked, Bool.false_eq_true, if_false, Bool.false_or]
      split
      · rw [ih, hw]; rfl
      · rw [ih, bucketLoop_exited, hw]; rfl
  | dir name contents rest ihc ihr =>
    intro basedir w
    cases hw : w.exited with
    | true => rw [walk_exited_stays _ _ _ _ _ _ _ hw, hw]; rfl
    | false =>
      simp only [walk, hw, blocked, Bool.false_eq_true, if_false, Bool.false_or]
      split
      · rw [ihr, hw]; rfl
      · rw [ihr, ihc, hw]; rfl
  | unreadable name rest ih =>
    intro basedir w
    cases hw : w.exited with
    | true => rw [walk_exited_stays _ _ _ _ _ _ _ hw, hw]; rfl
    | false =>
      simp only [walk, hw, blocked, Bool.false_eq_true, if_false, Bool.false_or]
      split
      · rw [ih, hw]; rfl
      · rfl

theorem syncFile_of_settled (clock : Nat → GoString → Int) (accepts : Nat → GoString → Bool)
    (fs : LocalFS) (p : GoString) (w : World S3State)
    (h : fs.canOpen p = true → settled fs w.remote p) :
    (syncFile fs (recordingStore clock accepts) p w).remote = w.remote ∧
    ∃ extra, (syncFile fs (recordingStore clock accepts) p w).trace = w.trace ++ extra ∧
      (∀ e ∈ extra, e.isUpload = false) ∧
      (fs.stat p ≠ none → fs.canOpen p = true → Event.skip p ∈ extra) := by
  cases hstat : fs.stat p with
  | none =>
    refine ⟨by simp [syncFile, hstat], [.cannotStat p], by simp [syncFile, hstat], ?_, ?_⟩
    · simp [Event.isUpload]
    · intro hne; exact absurd rfl hne
  | some meta =>
    obtain ⟨sz, mt⟩ := meta
    cases hdec : syncDecision sz mt (w.remote.objects (p.drop 1)) with
    | skip =>
      refine ⟨by simp only [syncFile, hstat, recordingStore, hdec],
        [.headObject (p.drop 1), .skip p], by simp only [syncFile, hstat, recordingStore, hdec],
        ?_, ?_⟩
      · simp [Event.isUpload]
      · intro _ _; simp
    | upload msg =>
      cases hopen : fs.canOpen p with
      | false =>
        refine ⟨by simp only [syncFile, hstat, recordingStore, hdec, hopen, Bool.false_eq_true,
            if_false],
          [.headObject (p.drop 1), .cannotOpen p],
          by simp only [syncFile, hstat, recordingStore, hdec, hopen, Bool.false_eq_true,
            if_false], ?_, ?_⟩
        · simp [Event.isUpload]
        · intro _ ho; cases ho
      | true =>
        have := h hopen sz mt hstat
        rw [hdec] at this
        cases this

theorem bucketLoop_of_settled (clock : Nat → GoString → Int) (accepts : Nat → GoString → Bool)
    (fs : LocalFS) (p bucket : GoString) :
    ∀ (xs : List GoString) (w : World S3State), (bucket ∈ xs → fs.canOpen p = true → settled fs w.remote p) →
      (bucketLoop fs (recordingStore clock accepts) p bucket xs w).remote = w.remote ∧
      ∃ extra, (bucketLoop fs (recordingStore clock accepts) p bucket xs w).trace =
          w.trace ++ extra ∧
        (∀ e ∈ extra, e.isUpload = false) ∧
        (bucket ∈ xs → fs.stat p ≠ none → fs.canOpen p = true → Event.skip p ∈ extra)
  | [], w, _ => ⟨rfl, [], by simp [bucketLoop], by simp, by simp⟩
  | x :: xs, w, h => by
    simp only [bucketLoop]
    by_cases hx : x = bucket
    · have hs : fs.canOpen p = true → settled fs w.remote p := h (hx ▸ List.mem_cons_self _ _)
      obtain ⟨r1, e1, t1, d1, k1⟩ := syncFile_of_settled clock accepts fs p w hs
      obtain ⟨r2, e2, t2, d2, _⟩ := bucketLoop_of_settled clock accepts fs p bucket xs
        (syncFile fs (recordingStore clock accepts) p w) (fun _ => by rw [r1]; exact hs)
      simp only [hx, if_true]
      refine ⟨by rw [r2, r1], e1 ++ e2, by rw [t2, t1, List.append_assoc], ?_, ?_⟩
      · intro e he
        rcases List.mem_append.mp he with hm | hm
        · exact d1 e hm
        · exact d2 e hm
      · intro _ hne ho
        exact List.mem_append.mpr (Or.inl (k1 hne ho))
    · have hin : bucket ∈ xs → fs.canOpen p = true → settled fs w.remote p :=
        fun hm => h (List.mem_cons_of_mem _ hm)
      obtain ⟨r2, e2, t2, d2, k2⟩ := bucketLoop_of_settled clock accepts fs p bucket xs w hin
      simp only [hx, if_false]
      refine ⟨r2, e2, t2, d2, ?_⟩
      intro hm hne
      rcases List.mem_cons.mp hm with hm | hm
      · exact absurd hm.symm hx
      · exact k2 hm hne

theorem walk_of_settled (clock : Nat → GoString → Int) (accepts : Nat → GoString → Bool)
    (fs : LocalFS) (sum : GoString → Digest) (myBuckets : List GoString) :
    ∀ (listing : Listing) (basedir : GoString) (w : World S3State),
      (∀ p ∈ visibleFiles basedir listing, route sum p ∈ myBuckets → fs.canOpen p = true →
        settled fs w.remote p) →
      (walk fs (recordingStore clock accepts) sum myBuckets basedir listing w).remote = w.remote ∧
      ∃ extra, (walk fs (recordingStore clock accepts) sum myBuckets basedir listing w).trace =
          w.trace ++ extra ∧
        (∀ e ∈ extra, e.isUpload = false) ∧
        (w.exited = false → blocked listing = false →
          ∀ p ∈ visibleFiles basedir listing, route sum p ∈ myBuckets → fs.stat p ≠ none →
            fs.canOpen p = true → Event.skip p ∈ extra) := by
  intro listing
  induction listing with
  | nil =>
    intro basedir w _
    exact ⟨rfl, [], by simp [walk], by simp, by simp [visibleFiles]⟩
  | file name rest ih =>
    intro basedir w h
    cases hw : w.exited with
    | true =>
      rw [walk_exited_stays _ _ _ _ _ _ _ hw]
      exact ⟨rfl, [], by simp, by simp, by simp⟩
    | false =>
      by_cases hh : stringsHasPrefix name (ascii ".") = true
      · simp only [walk, hw, hh, visibleFiles, blocked, Bool.false_eq_true, if_false, if_true]
          at h ⊢
        obtain ⟨r, e, t, d, k⟩ := ih basedir w h
        exact ⟨r, e, t, d, fun _ hb => k hw hb⟩
      · simp only [walk, hw, hh, visibleFiles, blocked, Bool.false_eq_true, if_false,
          List.mem_cons, forall_eq_or_imp] at h ⊢
        obtain ⟨r1, e1, t1, d1, k1⟩ := bucketLoop_of_settled clock accepts fs
          (basedir ++ ascii "/" ++ name) (route sum (basedir ++ ascii "/" ++ name)) myBuckets w h.1
        obtain ⟨r2, e2, t2, d2, k2⟩ := ih basedir (bucketLoop fs (recordingStore clock accepts)
          (basedir ++ ascii "/" ++ name) (route sum (basedir ++ ascii "/" ++ name)) myBuckets w)
          (by rw [r1]; exact h.2)
        refine ⟨by rw [r2, r1], e1 ++ e2, by rw [t2, t1, List.append_assoc], ?_, ?_⟩
        · intro e he
          rcases List.mem_append.mp he with hm | hm
          · exact d1 e hm
          · exact d2 e hm
        · intro _ hb
          refine ⟨fun hown hne ho => List.mem_append.mpr (Or.inl (k1 hown hne ho)), ?_⟩
          intro p hp hown hne ho
          exact List.mem_append.mpr (Or.inr
            (k2 (by rw [bucketLoop_exited]; exact hw) hb p hp hown hne ho))
  | dir name contents rest ihc ihr =>
    intro basedir w h
    cases hw : w.exited with
    | true =>
      rw [walk_exited_stays _ _ _ _ _ _ _ hw]
      exact ⟨rfl, [], by simp, by simp, by simp⟩
    | false =>
      by_cases hh : stringsHasPrefix name (ascii ".") = true
      · simp only [walk, hw, hh, visibleFiles, blocked, Bool.false_eq_true, if_false, if_true]
          at h ⊢
        obtain ⟨r, e, t, d, k⟩ := ihr basedir w h
        exact ⟨r, e, t, d, fun _ hb => k hw hb⟩
      · simp only [walk, hw, hh, visibleFiles, blocked, Bool.false_eq_true, if_false,
          List.mem_append, Bool.or_eq_false_iff] at h ⊢
        obtain ⟨r1, e1, t1, d1, k1⟩ := ihc (basedir ++ ascii "/" ++ name) w
          (fun p hp => h p (Or.inl hp))
        obtain ⟨r2, e2, t2, d2, k2⟩ := ihr basedir (walk fs (recordingStore clock accepts) sum
          myBuckets (basedir ++ ascii "/" ++ name) contents w)
          (by rw [r1]; exact fun p hp => h p (Or.inr hp))
        refine ⟨by rw [r2, r1], e1 ++ e2, by rw [t2, t1, List.append_assoc], ?_, ?_⟩
        · intro e he
          rcases List.mem_append.mp he with hm | hm
          · exact d1 e hm
          · exact d2 e hm
        · rintro _ ⟨hb1, hb2⟩ p (hp | hp) hown hne ho
          · exact List.mem_append.mpr (Or.inl (k1 hw hb1 p hp hown hne ho))
          · exact List.mem_append.mpr (Or.inr
              (k2 (by rw [walk_exited, hw, hb1]; rfl) hb2 p hp hown hne ho))
  | unreadable name rest ih =>
    intro basedir w h
    cases hw : w.exited with
    | true =>
      rw [walk_exited_stays _ _ _ _ _ _ _ hw]
      exact ⟨rfl, [], by simp, by simp, by simp⟩
    | false =>
      by_cases hh : stringsHasPrefix name (ascii ".") = true
      · simp only [walk, hw, hh, visibleFiles, blocked, Bool.false_eq_true, if_false, if_true]
          at h ⊢
        obtain ⟨r, e, t, d, k⟩ := ih basedir w h
        exact ⟨r, e, t, d, fun _ hb => k hw hb⟩
      · simp only [walk, hw, hh, visibleFiles, blocked, Bool.false_eq_true, if_false]
        exact ⟨trivial, [], by simp, by simp, by simp⟩

theorem syncDecision_after_upload {sz mt now : Int} (h : mt < now) :
    syncDecision sz mt (some (sz, now)) = .skip := by
  simp [syncDecision, h]

theorem syncFile_settles (clock : Nat → GoString → Int) (accepts : Nat → GoString → Bool)
    (fs : LocalFS) (F : GoString → Prop)
    (hinj : ∀ p q, F p → F q → p.drop 1 = q.drop 1 → p = q)
    (hclk : ∀ p, F p → ∀ sz mt n, fs.stat p = some (sz, mt) → mt < clock n (p.drop 1))
    (p : GoString) (hp : F p) (w : World S3State) :
    (∀ q, F q → settled fs w.remote q →
      settled fs (syncFile fs (recordingStore clock accepts) p w).remote q) ∧
    ∃ extra, (syncFile fs (recordingStore clock accepts) p w).trace = w.trace ++ extra ∧
      ((∀ e ∈ extra, e.failedUpload = false) → fs.canOpen p = true →
        settled fs (syncFile fs (recordingStore clock accepts) p w).remote p) := by
  cases hstat : fs.stat p with
  | none =>
    have hval : syncFile fs (recordingStore clock accepts) p w =
        ⟨w.remote, w.trace ++ [.cannotStat p], w.exited⟩ := by
      simp only [syncFile, hstat]
    rw [hval]
    refine ⟨fun q _ hq => hq, _, rfl, fun _ _ sz mt h => ?_⟩
    rw [hstat] at h
    cases h
  | some meta =>
    obtain ⟨sz, mt⟩ := meta
    cases hdec : syncDecision sz mt (w.remote.objects (p.drop 1)) with
    | skip =>
      have hval : syncFile fs (recordingStore clock accepts) p w =
          ⟨w.remote, w.trace ++ [.headObject (p.drop 1), .skip p], w.exited⟩ := by
        simp only [syncFile, hstat, recordingStore, hdec]
      rw [hval]
      refine ⟨fun q _ hq => hq, _, rfl, fun _ _ sz2 mt2 h => ?_⟩
      rw [hstat] at h
      cases h
      exact hdec
    | upload msg =>
      cases hopen : fs.canOpen p with
      | false =>
        have hval : syncFile fs (recordingStore clock accepts) p w =
            ⟨w.remote, w.trace ++ [.headObject (p.drop 1), .cannotOpen p], w.exited⟩ := by
          simp only [syncFile, hstat, recordingStore, hdec, hopen, Bool.false_eq_true, if_false]
        rw [hval]
        refine ⟨fun q _ hq => hq, _, rfl, fun _ ho => ?_⟩
        cases ho
      | true =>
        cases hacc : accepts w.remote.uploads (p.drop 1) with
        | false =>
          have hval : syncFile fs (recordingStore clock accepts) p w =
              ⟨⟨w.remote.objects, w.remote.uploads + 1⟩,
                w.trace ++ [.headObject (p.drop 1), .upload (p.drop 1) msg false], w.exited⟩ := by
            simp only [syncFile, hstat, recordingStore, hdec, hopen, hacc, Bool.false_eq_true,
              if_false, if_true]
          rw [hval]
          refine ⟨fun q _ hq => hq, _, rfl, fun hno _ => ?_⟩
          have := hno (.upload (p.drop 1) msg false) (by simp)
          simp [Event.failedUpload] at this
        | true =>
          have hval : syncFile fs (recordingStore clock accepts) p w =
              ⟨⟨fun k => if k = p.drop 1 then some (sz, clock w.remote.uploads (p.drop 1))
                  else w.remote.objects k, w.remote.uploads + 1⟩,
                w.trace ++ [.headObject (p.drop 1), .upload (p.drop 1) msg true], w.exited⟩ := by
            simp only [syncFile, hstat, recordingStore, hdec, hopen, hacc, if_true]
          rw [hval]
          have hself : settled fs ⟨fun k => if k = p.drop 1 then
              some (sz, clock w.remote.uploads (p.drop 1)) else w.remote.objects k,
              w.remote.uploads + 1⟩ p := by
            intro sz2 mt2 h
            rw [hstat] at h
            cases h
            simp only [if_true]
            exact syncDecision_after_upload (hclk p hp sz mt _ hstat)
          refine ⟨fun q hq hset => ?_, _, rfl, fun _ _ => hself⟩
          by_cases hk : q.drop 1 = p.drop 1
          · rw [hinj q p hq hp hk]
            exact hself
          · intro sz2 mt2 h
            simp only [hk, if_false]
            exact hset sz2 mt2 h

theorem bucketLoop_settles (clock : Nat → GoString → Int) (accepts : Nat → GoString → Bool)
    (fs : LocalFS) (F : GoString → Prop)
    (hinj : ∀ p q, F p → F q → p.drop 1 = q.drop 1 → p = q)
    (hclk : ∀ p, F p → ∀ sz mt n, fs.stat p = some (sz, mt) → mt < clock n (p.drop 1))
    (p bucket : GoString) :
    ∀ (xs : List GoString) (w : World S3State), (bucket ∈ xs → F p) →
      (∀ q, F q → settled fs w.remote q →
        settled fs (bucketLoop fs (recordingStore clock accepts) p bucket xs w).remote q) ∧
      ∃ extra, (bucketLoop fs (recordingStore clock accepts) p bucket xs w).trace =
          w.trace ++ extra ∧
        ((∀ e ∈ extra, e.failedUpload = false) → bucket ∈ xs → fs.canOpen p = true →
          settled fs (bucketLoop fs (recordingStore clock accepts) p bucket xs w).remote p)
  | [], w, _ => ⟨fun _ _ h => h, [], by simp [bucketLoop], by simp⟩
  | x :: xs, w, h => by
    simp only [bucketLoop]
    by_cases hx : x = bucket
    · have hp : F p := h (hx ▸ List.mem_cons_self _ _)
      obtain ⟨k1, e1, t1, s1⟩ := syncFile_settles clock accepts fs F hinj hclk p hp w
      obtain ⟨k2, e2, t2, _⟩ := bucketLoop_settles clock accepts fs F hinj hclk p bucket xs
        (syncFile fs (recordingStore clock accepts) p w) (fun _ => hp)
      simp only [hx, if_true]
      refine ⟨fun q hq hset => k2 q hq (k1 q hq hset), e1 ++ e2,
        by rw [t2, t1, List.append_assoc], ?_⟩
      intro hno _ ho
      exact k2 p hp (s1 (fun e he => hno e (List.mem_append.mpr (Or.inl he))) ho)
    · obtain ⟨k2, e2, t2, s2⟩ := bucketLoop_settles clock accepts fs F hinj hclk p bucket xs w
        (fun hm => h (List.mem_cons_of_mem _ hm))
      simp only [hx, if_false]
      refine ⟨k2, e2, t2, fun hno hm => ?_⟩
      rcases List.mem_cons.mp hm with hm | hm
      · exact absurd hm.symm hx
      · exact s2 hno hm

theorem walk_settles (clock : Nat → GoString → Int) (accepts : Nat → GoString → Bool)
    (fs : LocalFS) (sum : GoString → Digest) (myBuckets : List GoString) (F : GoString → Prop)
    (hinj : ∀ p q, F p → F q → p.drop 1 = q.drop 1 → p = q)
    (hclk : ∀ p, F p → ∀ sz mt n, fs.stat p = some (sz, mt) → mt < clock n (p.drop 1)) :
    ∀ (listing : Listing) (basedir : GoString) (w : World S3State),
      (∀ p ∈ visibleFiles basedir listing, route sum p ∈ myBuckets → F p) →
      (∀ q, F q → settled fs w.remote q →
        settled fs (walk fs (recordingStore clock accepts) sum myBuckets basedir listing w).remote
          q) ∧
      ∃ extra, (walk fs (recordingStore clock accepts) sum myBuckets basedir listing w).trace =
          w.trace ++ extra ∧
        ((∀ e ∈ extra, e.failedUpload = false) → w.exited = false → blocked listing = false →
          ∀ p ∈ visibleFiles basedir listing, route sum p ∈ myBuckets → fs.canOpen p = true →
            settled fs
              (walk fs (recordingStore clock accepts) sum myBuckets basedir listing w).remote p) := by
  intro listing
  induction listing with
  | nil =>
    intro basedir w _
    exact ⟨fun _ _ h => h, [], by simp [walk], by simp [visibleFiles]⟩
  | file name rest ih =>
    intro basedir w h
    cases hw : w.exited with
    | true =>
      rw [walk_exited_stays _ _ _ _ _ _ _ hw]
      exact ⟨fun _ _ h => h, [], by simp, by simp⟩
    | false =>
      by_cases hh : stringsHasPrefix name (ascii ".") = true
      · simp only [walk, hw, hh, visibleFiles, blocked, Bool.false_eq_true, if_false, if_true]
          at h ⊢
        obtain ⟨k, e, t, s⟩ := ih basedir w h
        exact ⟨k, e, t, fun hno _ hb => s hno hw hb⟩
      · simp only [walk, hw, hh, visibleFiles, blocked, Bool.false_eq_true, if_false,
          List.mem_cons, forall_eq_or_imp] at h ⊢
        obtain ⟨k1, e1, t1, s1⟩ := bucketLoop_settles clock accepts fs F hinj hclk
          (basedir ++ ascii "/" ++ name) (route sum (basedir ++ ascii "/" ++ name)) myBuckets w h.1
        obtain ⟨k2, e2, t2, s2⟩ := ih basedir (bucketLoop fs (recordingStore clock accepts)
          (basedir ++ ascii "/" ++ name) (route sum (basedir ++ ascii "/" ++ name)) myBuckets w) h.2
        refine ⟨fun q hq hset => k2 q hq (k1 q hq hset), e1 ++ e2,
          by rw [t2, t1, List.append_assoc], ?_⟩
        intro hno _ hb
        have hno1 : ∀ e ∈ e1, e.failedUpload = false :=
          fun e he => hno e (List.mem_append.mpr (Or.inl he))
        have hno2 : ∀ e ∈ e2, e.failedUpload = false :=
          fun e he => hno e (List.mem_append.mpr (Or.inr he))
        refine ⟨fun hown ho => k2 _ (h.1 hown) (s1 hno1 hown ho), ?_⟩
        intro p hp hown
        exact s2 hno2 (by rw [bucketLoop_exited]; exact hw) hb p hp hown
  | dir name contents rest ihc ihr =>
    intro basedir w h
    cases hw : w.exited with
    | true =>
      rw [walk_exited_stays _ _ _ _ _ _ _ hw]
      exact ⟨fun _ _ h => h, [], by simp, by simp⟩
    | false =>
      by_cases hh : stringsHasPrefix name (ascii ".") = true
      · simp only [walk, hw, hh, visibleFiles, blocked, Bool.false_eq_true, if_false, if_true]
          at h ⊢
        obtain ⟨k, e, t, s⟩ := ihr basedir w h
        exact ⟨k, e, t, fun hno _ hb => s hno hw hb⟩
      · simp only [walk, hw, hh, visibleFiles, blocked, Bool.false_eq_true, if_false,
          List.mem_append, Bool.or_eq_false_iff] at h ⊢
        obtain ⟨k1, e1, t1, s1⟩ := ihc (basedir ++ ascii "/" ++ name) w
          (fun p hp => h p (Or.inl hp))
        obtain ⟨k2, e2, t2, s2⟩ := ihr basedir (walk fs (recordingStore clock accepts) sum
          myBuckets (basedir ++ ascii "/" ++ name) contents w) (fun p hp => h p (Or.inr hp))
        refine ⟨fun q hq hset => k2 q hq (k1 q hq hset), e1 ++ e2,
          by rw [t2, t1, List.append_assoc], ?_⟩
        rintro hno _ ⟨hb1, hb2⟩ p (hp | hp) hown
        · intro ho
          exact k2 p (h p (Or.inl hp) hown)
            (s1 (fun e he => hno e (List.mem_append.mpr (Or.inl he))) hw hb1 p hp hown ho)
        · exact s2 (fun e he => hno e (List.mem_append.mpr (Or.inr he)))
            (by rw [walk_exited, hw, hb1]; rfl) hb2 p hp hown
  | unreadable name rest ih =>
    intro basedir w h
    cases hw : w.exited with
    | true =>
      rw [walk_exited_stays _ _ _ _ _ _ _ hw]
      exact ⟨fun _ _ h => h, [], by simp, by simp⟩
    | false =>
      by_cases hh : stringsHasPrefix name (ascii ".") = true
      · simp only [walk, hw, hh, visibleFiles, blocked, Bool.false_eq_true, if_false, if_true]
          at h ⊢
        obtain ⟨k, e, t, s⟩ := ih basedir w h
        exact ⟨k, e, t, fun hno _ hb => s hno hw hb⟩
      · simp only [walk, hw, hh, visibleFiles, blocked, Bool.false_eq_true, if_false]
        exact ⟨fun _ _ h => h, [], by simp, by simp⟩

theorem visibleFiles_sub_regularFiles :
    ∀ (listing : Listing) (basedir : GoString), ∀ p ∈ visibleFiles basedir listing,
      p ∈ regularFiles basedir listing := by
  intro listing
  induction listing with
  | nil => intro basedir p hp; simp [visibleFiles] at hp
  | file name rest ih =>
    intro basedir p hp
    simp only [visibleFiles] at hp
    simp only [regularFiles, List.mem_cons]
    split at hp
    · exact Or.inr (ih basedir p hp)
    · rcases List.mem_cons.mp hp with h | h
      · exact Or.inl h
      · exact Or.inr (ih basedir p h)
  | dir name contents rest ihc ihr =>
    intro basedir p hp
    simp only [visibleFiles] at hp
    simp only [regularFiles, List.mem_append]
    split at hp
    · exact Or.inr (ihr basedir p hp)
    · rcases List.mem_append.mp hp with h | h
      · exact Or.inl (ihc _ p h)
      · exact Or.inr (ihr basedir p h)
  | unreadable name rest ih =>
    intro basedir p hp
    simp only [visibleFiles] at hp
    simp only [regularFiles]
    exact ih basedir p hp

/-- C9 as stated fails, in three ways. (1) A file last modified in the very
second in which the first run uploads it (time 100): the first run completes
with its upload succeeding, and the second run decides MODIFIED and uploads the
file again. (2) A file that cannot be opened: the first run completes without
any upload request, and the second run decides NEW again instead of SKIP.
(3) A file whose metadata cannot be read: both runs complete and log the
failure, and no SKIP is decided for the file. -/
theorem second_run_uploads_again :
    ((sampleFirstRun (sampleFS 5 100) 100).exited = false ∧
      (sampleFirstRun (sampleFS 5 100) 100).trace =
        [.headObject (ascii "data/a"), .upload (ascii "data/a") "NEW" true] ∧
      (sampleFirstRun (sampleFS 5 100) 100).remote.objects (ascii "data/a") = some (5, 100) ∧
      (sampleSecondRun (sampleFS 5 100) 100).trace =
        [.headObject (ascii "data/a"), .upload (ascii "data/a") "MOD" true]) ∧
    ((sampleFirstRun (lockedFS 5 100) 200).exited = false ∧
      (sampleFirstRun (lockedFS 5 100) 200).trace =
        [.headObject (ascii "data/a"), .cannotOpen (ascii "/data/a")] ∧
      (∀ e ∈ (sampleFirstRun (lockedFS 5 100) 200).trace, e.failedUpload = false) ∧
      (sampleSecondRun (lockedFS 5 100) 200).trace =
        [.headObject (ascii "data/a"), .cannotOpen (ascii "/data/a")] ∧
      syncDecision 5 100 ((sampleFirstRun (lockedFS 5 100) 200).remote.objects (ascii "data/a")) =
        .upload "NEW") ∧
    ((sampleFirstRun danglingFS 200).exited = false ∧
      (sampleFirstRun danglingFS 200).trace = [.cannotStat (ascii "/data/a")] ∧
      (sampleSecondRun danglingFS 200).trace = [.cannotStat (ascii "/data/a")]) := by
  refine ⟨⟨by decide, by decide, by decide, by decide⟩,
    ⟨by decide, by decide, by decide, by decide, by decide⟩,
    ⟨by decide, by decide, by decide⟩⟩

/-- C9 (amended): if a first run of the upload walk completes with every upload
succeeding, the object store records each uploaded object with the file's size
and the time of the upload, that time is strictly later than the last-modified
time of the uploaded file, and the local tree is unchanged, then a second run
completes, leaves the object store as it is, uploads nothing, and decides SKIP
for every owned file whose metadata can be read and that can be opened. -/
theorem second_run_skips (clock : Nat → GoString → Int) (accepts : Nat → GoString → Bool)
    (fs : LocalFS) (sum : GoString → Digest) (basedir : GoString) (myBuckets : List GoString)
    (listing : Listing) (remote : S3State)
    (hdone : (s3upload fs (recordingStore clock accepts) sum basedir myBuckets (some listing)
      ⟨remote, [], false⟩).exited = false)
    (hok : ∀ e ∈ (s3upload fs (recordingStore clock accepts) sum basedir myBuckets (some listing)
      ⟨remote, [], false⟩).trace, e.failedUpload = false)
    (hclock : ∀ p ∈ visibleFiles basedir listing, route sum p ∈ myBuckets →
      ∀ sz mt n, fs.stat p = some (sz, mt) → mt < clock n (p.drop 1)) :
    (s3upload fs (recordingStore clock accepts) sum basedir myBuckets (some listing)
      ⟨(s3upload fs (recordingStore clock accepts) sum basedir myBuckets (some listing)
        ⟨remote, [], false⟩).remote, [], false⟩).exited = false ∧
    (s3upload fs (recordingStore clock accepts) sum basedir myBuckets (some listing)
      ⟨(s3upload fs (recordingStore clock accepts) sum basedir myBuckets (some listing)
        ⟨remote, [], false⟩).remote, [], false⟩).remote =
      (s3upload fs (recordingStore clock accepts) sum basedir myBuckets (some listing)
        ⟨remote, [], false⟩).remote ∧
    (∀ e ∈ (s3upload fs (recordingStore clock accepts) sum basedir myBuckets (some listing)
      ⟨(s3upload fs (recordingStore clock accepts) sum basedir myBuckets (some listing)
        ⟨remote, [], false⟩).remote, [], false⟩).trace, e.isUpload = false) ∧
    (∀ p ∈ visibleFiles basedir listing, route sum p ∈ myBuckets → fs.stat p ≠ none →
      fs.canOpen p = true →
      Event.skip p ∈ (s3upload fs (recordingStore clock accepts) sum basedir myBuckets
        (some listing)
        ⟨(s3upload fs (recordingStore clock accepts) sum basedir myBuckets (some listing)
          ⟨remote, [], false⟩).remote, [], false⟩).trace) := by
  simp only [s3upload] at hdone hok ⊢
  have hblocked : blocked listing = false := by
    rw [walk_exited] at hdone
    simpa using hdone
  obtain ⟨_, e1, t1, s1⟩ := walk_settles clock accepts fs sum myBuckets
    (fun p => p ∈ visibleFiles basedir listing ∧ route sum p ∈ myBuckets)
    (fun p q hp hq h => regularFiles_key_inj listing basedir p q
      (visibleFiles_sub_regularFiles listing basedir p hp.1)
      (visibleFiles_sub_regularFiles listing basedir q hq.1) h)
    (fun p hp => hclock p hp.1 hp.2)
    listing basedir ⟨remote, [], false⟩ (fun p hp hown => ⟨hp, hown⟩)
  have hset := s1 (fun e he => hok e (by rw [t1]; exact List.mem_append.mpr (Or.inr he)))
    rfl hblocked
  obtain ⟨r2, e2, t2, d2, k2⟩ := walk_of_settled clock accepts fs sum myBuckets listing basedir
    ⟨(walk fs (recordingStore clock accepts) sum myBuckets basedir listing
      ⟨remote, [], false⟩).remote, [], false⟩ hset
  refine ⟨?_, r2, ?_, ?_⟩
  · rw [walk_exited, hblocked]
    rfl
  · intro e he
    rw [t2] at he
    exact d2 e (by simpa using he)
  · intro p hp hown hne ho
    rw [t2]
    exact List.mem_append.mpr (Or.inr (k2 rfl hblocked p hp hown hne ho))

theorem second_run_skips_witness :
    (sampleSecondRun (sampleFS 5 100) 200).exited = false ∧
    (sampleSecondRun (sampleFS 5 100) 200).remote = (sampleFirstRun (sampleFS 5 100) 200).remote ∧
    (∀ e ∈ (sampleSecondRun (sampleFS 5 100) 200).trace, e.isUpload = false) ∧
    (∀ p ∈ visibleFiles (ascii "/data") sampleTree, route sampleSum p ∈ buckets →
      (sampleFS 5 100).stat p ≠ none → (sampleFS 5 100).canOpen p = true →
      Event.skip p ∈ (sampleSecondRun (sampleFS 5 100) 200).trace) :=
  second_run_skips (fun _ _ => 200) (fun _ _ => true) (sampleFS 5 100) sampleSum (ascii "/data")
    buckets sampleTree emptyBucket (by decide) (by decide)
    (by
      intro p _ _ sz mt n h
      have hmt : mt = 100 := by
        simp only [sampleFS, Option.some.injEq, Prod.mk.injEq] at h
        exact h.2.symm
      rw [hmt]
      show (100 : Int) < 200
      decide)

end Q2S3
